import Mathlib

/-!
Shallow embedding of `Filters/parser.py` (AdGuardHome filter-list generator).

Strings are modelled as `List Char` (Python `str` values); Python's `-1`
"not found" results are modelled as `Option Nat`.  File and network I/O is
modelled by passing the fetched/read text in as a parameter; output is the
list of strings passed to `f.writelines`, in order.
-/

namespace FiltersParser

/-- Python `s.startswith(p)` over `List Char`. -/
def isPfx : List Char → List Char → Bool
  | [], _ => true
  | _ :: _, [] => false
  | a :: as, b :: bs => a == b && isPfx as bs

/-- Python `s.find(c)` for a single character `c`: index of the first
occurrence, `none` for Python's `-1`. -/
def pyFind (c : Char) (s : List Char) : Option Nat :=
  s.findIdx? (fun x => x == c)

/-- Python `s.find(c, start)` for a single character: first occurrence at or
after index `start`. -/
def pyFindFrom (c : Char) (start : Nat) (s : List Char) : Option Nat :=
  (pyFind c (s.drop start)).map (fun i => i + start)

/-- Python `s.find(pat)` for a substring `pat`: index of the first occurrence
of `pat` in `s`, `none` for Python's `-1`. -/
def findSub (pat : List Char) : List Char → Option Nat
  | [] => if pat = [] then some 0 else none
  | c :: tl =>
    if isPfx pat (c :: tl) then some 0
    else (findSub pat tl).map (fun i => i + 1)

/-- Python `pat in s` (substring containment test). -/
def containsSub (pat s : List Char) : Bool :=
  (findSub pat s).isSome

/-- Python `str.isspace` on one character, for the whitespace stripped by
`strip()` / `rstrip()` with no arguments. -/
def isSpace (c : Char) : Bool :=
  c == ' ' || c == '\t' || c == '\n' || c == '\r' || c == '\x0b' || c == '\x0c'

/-- Python `s.lstrip()`. -/
def pyLStrip (s : List Char) : List Char :=
  s.dropWhile isSpace

/-- Python `s.rstrip()` with no arguments: removes ALL trailing whitespace. -/
def pyRStrip (s : List Char) : List Char :=
  (s.reverse.dropWhile isSpace).reverse

/-- Python `s.strip()`. -/
def pyStrip (s : List Char) : List Char :=
  pyRStrip (pyLStrip s)

/-- Scanner for Python `s.replace(pat, '')`: `skip` characters of a matched
occurrence remain to be dropped before scanning resumes. -/
def removeAllAux (pat : List Char) : List Char → Nat → List Char
  | [], _ => []
  | _ :: tl, Nat.succ k => removeAllAux pat tl k
  | c :: tl, 0 =>
    if pat ≠ [] ∧ isPfx pat (c :: tl) = true then
      removeAllAux pat tl (pat.length - 1)
    else
      c :: removeAllAux pat tl 0

/-- Python `s.replace(pat, '')`: removes every (leftmost, non-overlapping)
occurrence of `pat` from `s`. -/
def removeAll (pat s : List Char) : List Char :=
  removeAllAux pat s 0

/-- Python `s.split(c)` for a one-character separator `c`. -/
def splitOnChar (c : Char) : List Char → List (List Char)
  | [] => [[]]
  | x :: xs =>
    if x == c then [] :: splitOnChar c xs
    else
      match splitOnChar c xs with
      | [] => [[x]]
      | h :: t => (x :: h) :: t

/-- Concatenation with separator `c`, inverse of `splitOnChar`. -/
def joinChar (c : Char) : List (List Char) → List Char
  | [] => []
  | [x] => x
  | x :: y :: t => x ++ c :: joinChar c (y :: t)

/-- Embedding of `is_domain_rule` from `Filters/parser.py`:
`point_idx = rule.find('.')`; if absent return `False`;
`question_idx = rule.find('?', point_idx)`; `slash_idx = rule.find('/', point_idx)`;
if both absent return `True`; otherwise
`replace_idx = slash_idx if slash_idx != -1 else question_idx` and the
result is `len(rule[replace_idx:]) <= 2`. -/
def is_domain_rule (rule : List Char) : Bool :=
  match pyFind '.' rule with
  | none => false
  | some point_idx =>
    match pyFindFrom '/' point_idx rule, pyFindFrom '?' point_idx rule with
    | none, none => true
    | some si, _ => decide ((rule.drop si).length ≤ 2)
    | none, some qi => decide ((rule.drop qi).length ≤ 2)

example : is_domain_rule ("example.com".data) = true := by decide
example : is_domain_rule ("examplecom".data) = false := by decide
example : is_domain_rule ("example.com/ads".data) = false := by decide
example : is_domain_rule ("example.com/".data) = true := by decide
example : is_domain_rule ("b.co/x".data) = true := by decide
example : is_domain_rule ("a.?bcd/e".data) = true := by decide

/-- Local date-time value observed by `datetime.datetime.now()`; the real
clock is modelled by passing such a value in. -/
structure PyDateTime where
  year : Nat
  month : Nat
  day : Nat
  hour : Nat
  minute : Nat
  second : Nat
deriving DecidableEq

/-- Zero-pad a digit string on the left to width `w`, as `strftime` does. -/
def padZero (w : Nat) (s : List Char) : List Char :=
  List.replicate (w - s.length) '0' ++ s

/-- Embedding of `date_now`: `strftime("%Y-%m-%d %H:%M:%S")` applied to the
given date-time value. -/
def date_now (d : PyDateTime) : List Char :=
  padZero 4 (Nat.toDigits 10 d.year) ++ ['-'] ++
  padZero 2 (Nat.toDigits 10 d.month) ++ ['-'] ++
  padZero 2 (Nat.toDigits 10 d.day) ++ [' '] ++
  padZero 2 (Nat.toDigits 10 d.hour) ++ [':'] ++
  padZero 2 (Nat.toDigits 10 d.minute) ++ [':'] ++
  padZero 2 (Nat.toDigits 10 d.second)

example : date_now ⟨2026, 10, 12, 9, 5, 3⟩ = "2026-10-12 09:05:03".data := by decide

/-- Literal placeholder token looked up by `save_comment`. -/
def timestampToken : List Char := "%timestamp%".data

/-- Embedding of `save_comment`: `idx = comment.find('%timestamp%')`; when
found, `comment = comment[:idx] + date_now() + '\n'`; then
`f.writelines(comment)`.  The output sink is the list of written strings. -/
def save_comment (d : PyDateTime) (comment : List Char)
    (output : List (List Char)) : List (List Char) :=
  match findSub timestampToken comment with
  | some idx => output ++ [comment.take idx ++ date_now d ++ ['\n']]
  | none => output ++ [comment]

/-- Embedding of `is_rule_not_exclusion`, parameterised by the exclusion
list: `for line in exclusions: if line in rule and line != '': return False`;
`return True`. -/
def is_rule_not_exclusion (exclusions : List (List Char)) (rule : List Char) : Bool :=
  match exclusions with
  | [] => true
  | line :: rest =>
    if containsSub line rule && !(line == []) then false
    else is_rule_not_exclusion rest rule

/-- Embedding of `is_not_duplication`: `rule not in processed_rules`. -/
def is_not_duplication (processed : List (List Char)) (rule : List Char) : Bool :=
  !(processed.contains rule)

/-- Mutable run state: the global `processed_rules` set (modelled as the list
of strings added so far, membership being what matters) together with the
output file `f` (the list of strings written so far, in order). -/
structure St where
  processed : List (List Char)
  output : List (List Char)
deriving DecidableEq

/-- State at the start of a run: `processed_rules = set()`, empty output. -/
def st0 : St := ⟨[], []⟩

/-- Embedding of `write_rule`:
`if (is_domain_rule(rule) and is_not_duplication(rule)) or rule.startswith('!'):`
then `f.writelines(rule + '\n'); processed_rules.add(rule)`. -/
def write_rule (rule : List Char) (st : St) : St :=
  if (is_domain_rule rule && is_not_duplication st.processed rule)
      || isPfx ['!'] rule then
    ⟨rule :: st.processed, st.output ++ [rule ++ ['\n']]⟩
  else st

/-- Embedding of `get_content`: the fetched body `r.read()` split with
`.split('\n')`. -/
def get_content (body : List Char) : List (List Char) :=
  splitOnChar '\n' body

/-- The loop body of `save_url_rule` over the fetched lines:
`for rule in get_content(url): if is_rule_not_exclusion(rule): ...`
with `$`-truncation `rule[:idx]` before `write_rule`. -/
def save_url_lines (exclusions : List (List Char)) :
    List (List Char) → St → St
  | [], st => st
  | rule :: rest, st =>
    save_url_lines exclusions rest
      (if is_rule_not_exclusion exclusions rule then
        match pyFind '$' rule with
        | some idx => write_rule (rule.take idx) st
        | none => write_rule rule st
      else st)

/-- Embedding of `save_url_rule`, with the fetched body passed in for the
network read. -/
def save_url_rule (exclusions : List (List Char)) (body : List Char)
    (st : St) : St :=
  save_url_lines exclusions (get_content body) st

/-- URL extraction in `save_url_rule`: `line.replace('url', '').strip()`. -/
def url_of_line (line : List Char) : List Char :=
  pyStrip (removeAll ("url".data) line)

/-- File-name extraction in `save_file_rule`:
`line.replace('file', '').strip()`. -/
def file_of_line (line : List Char) : List Char :=
  pyStrip (removeAll ("file".data) line)

/-- Embedding of the loop of `save_file_rule`: the opened file's lines (as
Python's file iteration yields them, line terminators included) are each
passed through `rule.rstrip()` and then to `write_rule`. -/
def save_file_rule (fileLines : List (List Char)) (st : St) : St :=
  match fileLines with
  | [] => st
  | rule :: rest => save_file_rule rest (write_rule (pyRStrip rule) st)

/-- Following the claim's words for C5: the URL is obtained by stripping the
`url` PREFIX and surrounding whitespace, leaving the rest of the line
intact. -/
def url_of_line_claim (line : List Char) : List Char :=
  pyStrip (line.drop 3)

/-- Following the claim's words for C5: the file path is obtained by
stripping the `file` PREFIX and surrounding whitespace. -/
def file_of_line_claim (line : List Char) : List Char :=
  pyStrip (line.drop 4)

/-- Following the claim's words for C9: strip ONLY trailing line terminators
from a read line. -/
def stripLineTerm (s : List Char) : List Char :=
  (s.reverse.dropWhile (fun c => c == '\n' || c == '\r')).reverse

/-- Following the claim's words for C9: the local-file loop with only line
terminators stripped. -/
def save_file_rule_claim (fileLines : List (List Char)) (st : St) : St :=
  match fileLines with
  | [] => st
  | rule :: rest => save_file_rule_claim rest (write_rule (stripLineTerm rule) st)

example : url_of_line ("url http://x/curl".data) = "http://x/c".data := by decide
example : url_of_line_claim ("url http://x/curl".data) = "http://x/curl".data := by decide
example : (save_url_rule ["bad".data] ("a.com$xbad".data) st0) = st0 := by decide
example : (save_file_rule ["a.b \n".data] st0).output = ["a.b\n".data] := by decide
example : save_comment ⟨2026, 10, 12, 9, 5, 3⟩ ("! generated %timestamp% extra".data) []
    = ["! generated 2026-10-12 09:05:03\n".data] := by decide

lemma isPfx_iff (p s : List Char) : isPfx p s = true ↔ ∃ t, s = p ++ t := by
  induction p generalizing s with
  | nil => simp [isPfx]
  | cons a as ih =>
    cases s with
    | nil =>
      simp only [isPfx, List.cons_append]
      constructor
      · intro h
        exact absurd h (by simp)
      · rintro ⟨t, h⟩
        exact absurd h (by simp)
    | cons b bs =>
      simp only [isPfx, Bool.and_eq_true, beq_iff_eq, ih, List.cons_append]
      constructor
      · rintro ⟨rfl, t, rfl⟩
        exact ⟨t, rfl⟩
      · rintro ⟨t, h⟩
        injection h with h1 h2
        exact ⟨h1.symm, t, h2⟩

lemma isPfx_append (p t : List Char) : isPfx p (p ++ t) = true :=
  (isPfx_iff p (p ++ t)).2 ⟨t, rfl⟩

lemma findSub_isSome_iff (pat s : List Char) :
    (findSub pat s).isSome = true ↔ ∃ a b, s = a ++ pat ++ b := by
  induction s with
  | nil =>
    cases pat with
    | nil =>
      constructor
      · intro _
        exact ⟨[], [], rfl⟩
      · intro _
        decide
    | cons p ps =>
      simp only [findSub, if_neg (List.cons_ne_nil p ps), Option.isSome_none,
        Bool.false_eq_true, false_iff, not_exists]
      intro a b h
      simp [List.append_eq_nil] at h
  | cons c tl ih =>
    by_cases h : isPfx pat (c :: tl) = true
    · simp only [findSub, if_pos h, Option.isSome_some, true_iff]
      rcases (isPfx_iff _ _).1 h with ⟨t, ht⟩
      exact ⟨[], t, by simpa using ht⟩
    · have hs : findSub pat (c :: tl) = (findSub pat tl).map (fun i => i + 1) := by
        simp [findSub, h]
      rw [hs]
      have hmap : ((findSub pat tl).map (fun i => i + 1)).isSome
          = (findSub pat tl).isSome := by
        cases findSub pat tl <;> rfl
      rw [hmap, ih]
      constructor
      · rintro ⟨a, b, rfl⟩
        exact ⟨c :: a, b, by simp⟩
      · rintro ⟨a, b, hab⟩
        cases a with
        | nil =>
          exact absurd ((isPfx_iff pat (c :: tl)).2 ⟨b, by simpa using hab⟩) h
        | cons a0 as =>
          rw [List.cons_append, List.cons_append] at hab
          injection hab with h1 h2
          exact ⟨as, b, h2⟩

lemma removeAll_of_not_found (pat s : List Char)
    (h : findSub pat s = none) : removeAll pat s = s := by
  induction s with
  | nil => rfl
  | cons c tl ih =>
    have hnp : ¬ isPfx pat (c :: tl) = true := by
      intro hpf
      simp [findSub, hpf] at h
    have htl : findSub pat tl = none := by
      rw [findSub, if_neg hnp] at h
      exact Option.map_eq_none'.1 h
    show removeAllAux pat (c :: tl) 0 = c :: tl
    rw [removeAllAux, if_neg (by simp [hnp])]
    exact congrArg (c :: ·) (ih htl)

lemma removeAllAux_skip (pat a rest : List Char) :
    removeAllAux pat (a ++ rest) a.length = removeAllAux pat rest 0 := by
  induction a with
  | nil => rfl
  | cons x xs ih =>
    show removeAllAux pat (x :: (xs ++ rest)) (Nat.succ xs.length)
      = removeAllAux pat rest 0
    rw [removeAllAux]
    exact ih

lemma removeAll_cons_self (pat rest : List Char) (hp : pat ≠ []) :
    removeAll pat (pat ++ rest) = removeAll pat rest := by
  cases pat with
  | nil => exact absurd rfl hp
  | cons p ps =>
    have hpf : isPfx (p :: ps) ((p :: ps) ++ rest) = true := isPfx_append _ _
    show removeAllAux (p :: ps) (p :: (ps ++ rest)) 0
      = removeAllAux (p :: ps) rest 0
    rw [removeAllAux, if_pos ⟨List.cons_ne_nil p ps, by simpa using hpf⟩]
    have hlen : (p :: ps).length - 1 = ps.length := by simp
    rw [hlen]
    exact removeAllAux_skip (p :: ps) ps rest

lemma splitOnChar_ne_nil (c : Char) (s : List Char) : splitOnChar c s ≠ [] := by
  cases s with
  | nil => simp [splitOnChar]
  | cons x xs =>
    rw [splitOnChar]
    by_cases h : x == c
    · simp [h]
    · simp only [h, Bool.false_eq_true, if_false]
      cases splitOnChar c xs <;> simp

lemma joinChar_splitOnChar (c : Char) (s : List Char) :
    joinChar c (splitOnChar c s) = s := by
  induction s with
  | nil => rfl
  | cons x xs ih =>
    by_cases h : x == c
    · have hc : x = c := by simpa using h
      cases hs : splitOnChar c xs with
      | nil => exact absurd hs (splitOnChar_ne_nil c xs)
      | cons y t =>
        rw [splitOnChar, if_pos h, hs]
        rw [hs] at ih
        show c :: joinChar c (y :: t) = x :: xs
        rw [ih, hc]
    · cases hs : splitOnChar c xs with
      | nil => exact absurd hs (splitOnChar_ne_nil c xs)
      | cons y t =>
        rw [splitOnChar, if_neg (by simpa using h), hs]
        rw [hs] at ih
        cases t with
        | nil =>
          show x :: y = x :: xs
          rw [show joinChar c [y] = y from rfl] at ih
          rw [ih]
        | cons z t2 =>
          show (x :: y) ++ c :: joinChar c (z :: t2) = x :: xs
          rw [joinChar] at ih
          rw [List.cons_append, ih]

lemma not_mem_splitOnChar (c : Char) (s : List Char) :
    ∀ l ∈ splitOnChar c s, c ∉ l := by
  induction s with
  | nil =>
    intro l hl
    simp [splitOnChar] at hl
    simp [hl]
  | cons x xs ih =>
    intro l hl
    by_cases h : x == c
    · rw [splitOnChar, if_pos h] at hl
      rcases List.mem_cons.1 hl with rfl | hl2
      · simp
      · exact ih l hl2
    · have hxc : x ≠ c := by simpa using h
      cases hs : splitOnChar c xs with
      | nil => exact absurd hs (splitOnChar_ne_nil c xs)
      | cons y t =>
        rw [splitOnChar, if_neg (by simpa using h), hs] at hl
        have hy : c ∉ y := ih y (by rw [hs]; exact List.mem_cons_self y t)
        rcases List.mem_cons.1 hl with rfl | hl2
        · intro hc
          rcases List.mem_cons.1 hc with rfl | hcy
          · exact hxc rfl
          · exact hy hcy
        · exact ih l (by rw [hs]; exact List.mem_cons_of_mem y hl2)

lemma mem_write_rule (rule x : List Char) (st : St)
    (hx : x ∈ st.processed) : x ∈ (write_rule rule st).processed := by
  unfold write_rule
  split
  · exact List.mem_cons_of_mem _ hx
  · exact hx

lemma mem_save_url_lines (ex content : List (List Char)) (st : St)
    (x : List Char) (hx : x ∈ st.processed) :
    x ∈ (save_url_lines ex content st).processed := by
  induction content generalizing st with
  | nil => exact hx
  | cons rule rest ih =>
    rw [save_url_lines]
    apply ih
    split
    · split
      · exact mem_write_rule _ _ _ hx
      · exact mem_write_rule _ _ _ hx
    · exact hx

lemma mem_save_file_rule (fileLines : List (List Char)) (st : St)
    (x : List Char) (hx : x ∈ st.processed) :
    x ∈ (save_file_rule fileLines st).processed := by
  induction fileLines generalizing st with
  | nil => exact hx
  | cons rule rest ih =>
    rw [save_file_rule]
    exact ih _ (mem_write_rule _ _ _ hx)

lemma pyRStrip_decomp (l : List Char) :
    ∃ w, l = pyRStrip l ++ w ∧ ∀ c ∈ w, isSpace c = true := by
  refine ⟨(l.reverse.takeWhile isSpace).reverse, ?_, ?_⟩
  · conv_lhs => rw [← l.reverse_reverse,
      ← List.takeWhile_append_dropWhile (p := isSpace) (l := l.reverse)]
    rw [List.reverse_append]
    rfl
  · intro c hc
    exact List.mem_takeWhile_imp (List.mem_reverse.1 hc)

/-- Claim C1, counterexample: on `"a.?bcd/e"` the first `.` is at index 1,
the first `/` at-or-after it is at index 6 and the first `?` at-or-after it
is at index 2, so the earlier of the two cut points is index 2 and the tail
from there has length 6 > 2; yet `is_domain_rule` returns `true`, because the
code prefers the `/` position whenever a `/` exists.  This refutes the claim
that the earlier of the two positions is used as the cut point. -/
theorem c1_counterexample :
    pyFind '.' ("a.?bcd/e".data) = some 1 ∧
    pyFindFrom '/' 1 ("a.?bcd/e".data) = some 6 ∧
    pyFindFrom '?' 1 ("a.?bcd/e".data) = some 2 ∧
    ¬ ((("a.?bcd/e".data).drop (min 6 2)).length ≤ 2) ∧
    is_domain_rule ("a.?bcd/e".data) = true := by
  decide

/-- Claim C1 (amended): for every line containing a `.` where both a `/` and
a `?` occur at-or-after the first `.`, `is_domain_rule` uses the `/` position
as the cut point (the `?` position is used only when no `/` exists), and
returns `true` exactly when the substring from that cut point to the end of
the line has length at most 2. -/
theorem c1_slash_preferred_cut (rule : List Char) (p si qi : Nat)
    (hp : pyFind '.' rule = some p)
    (hs : pyFindFrom '/' p rule = some si)
    (hq : pyFindFrom '?' p rule = some qi) :
    is_domain_rule rule = true ↔ (rule.drop si).length ≤ 2 := by
  simp [is_domain_rule, hp, hs, hq]

theorem c1_witness :
    is_domain_rule ("a.b/c?d".data) = true ↔ (("a.b/c?d".data).drop 3).length ≤ 2 :=
  c1_slash_preferred_cut ("a.b/c?d".data) 1 3 5 (by decide) (by decide) (by decide)

/-- Claim C2: `write_rule` writes `rule + '\n'` to output and adds the
pre-newline `rule` string to the processed-rules set exactly when either
(a) `is_domain_rule` accepts it and it is not already in the set, or
(b) it starts with `'!'`; otherwise the state is unchanged. -/
theorem c2_write_rule_gate (rule : List Char) (st : St) :
    (((write_rule rule st).output = st.output ++ [rule ++ ['\n']] ∧
      (write_rule rule st).processed = rule :: st.processed) ↔
      ((is_domain_rule rule = true ∧ rule ∉ st.processed) ∨
        isPfx ['!'] rule = true)) ∧
    (¬ ((is_domain_rule rule = true ∧ rule ∉ st.processed) ∨
        isPfx ['!'] rule = true) → write_rule rule st = st) := by
  have hb : ((is_domain_rule rule && is_not_duplication st.processed rule)
      || isPfx ['!'] rule) = true ↔
      ((is_domain_rule rule = true ∧ rule ∉ st.processed) ∨
        isPfx ['!'] rule = true) := by
    simp [is_not_duplication]
  by_cases h : ((is_domain_rule rule && is_not_duplication st.processed rule)
      || isPfx ['!'] rule) = true
  · refine ⟨?_, fun hn => absurd (hb.1 h) hn⟩
    rw [write_rule, if_pos h]
    exact ⟨fun _ => hb.1 h, fun _ => ⟨rfl, rfl⟩⟩
  · refine ⟨?_, fun _ => by rw [write_rule, if_neg h]⟩
    rw [write_rule, if_neg h]
    constructor
    · rintro ⟨h1, _⟩
      exact absurd (congrArg List.length h1) (by simp)
    · intro hr
      exact absurd (hb.2 hr) h

theorem c2_witness :
    (write_rule ("a.b".data) st0).output = st0.output ++ ["a.b".data ++ ['\n']] ∧
    (write_rule ("a.b".data) st0).processed = "a.b".data :: st0.processed :=
  ((c2_write_rule_gate ("a.b".data) st0).1).2 (Or.inl ⟨by decide, by decide⟩)

/-- Claim C3: `is_rule_not_exclusion` returns `false` exactly when some
non-empty entry of the exclusion list occurs as a literal substring of the
line; an empty-string entry never causes any line to be rejected (prepending
one changes nothing). -/
theorem c3_exclusion_matching (exclusions : List (List Char)) (rule : List Char) :
    (is_rule_not_exclusion exclusions rule = false ↔
      ∃ e ∈ exclusions, e ≠ [] ∧ ∃ a b, rule = a ++ e ++ b) ∧
    is_rule_not_exclusion ([] :: exclusions) rule
      = is_rule_not_exclusion exclusions rule := by
  constructor
  · induction exclusions with
    | nil => simp [is_rule_not_exclusion]
    | cons line rest ih =>
      rw [is_rule_not_exclusion]
      by_cases h : (containsSub line rule && !(line == [])) = true
      · rw [if_pos h]
        simp only [Bool.and_eq_true, Bool.not_eq_true', beq_eq_false_iff_ne,
          containsSub] at h
        constructor
        · intro _
          rcases (findSub_isSome_iff line rule).1 h.1 with ⟨a, b, hab⟩
          exact ⟨line, List.mem_cons_self _ _, h.2, a, b, hab⟩
        · intro _
          rfl
      · rw [if_neg h, ih]
        constructor
        · rintro ⟨e, he, hne, a, b, hab⟩
          exact ⟨e, List.mem_cons_of_mem _ he, hne, a, b, hab⟩
        · rintro ⟨e, he, hne, a, b, hab⟩
          rcases List.mem_cons.1 he with rfl | he2
          · refine absurd ?_ h
            simp only [Bool.and_eq_true, Bool.not_eq_true', beq_eq_false_iff_ne,
              containsSub]
            exact ⟨(findSub_isSome_iff e rule).2 ⟨a, b, hab⟩, hne⟩
          · exact ⟨e, he2, hne, a, b, hab⟩
  · rw [is_rule_not_exclusion]
    simp

theorem c3_witness :
    is_rule_not_exclusion ["ads.".data] ("example.ads.net".data) = false :=
  ((c3_exclusion_matching ["ads.".data] ("example.ads.net".data)).1).2
    ⟨"ads.".data, by decide, by decide, "example.".data, "net".data, by decide⟩

/-- Claim C4, counterexample: `"!a.b"` passes `is_domain_rule` (it contains a
`.` and no `/` or `?`), yet passing it through `write_rule` twice emits it
twice, because the `'!'` branch bypasses deduplication.  This refutes the
claim that every `is_domain_rule`-validated rule string is emitted exactly
once. -/
theorem c4_counterexample :
    is_domain_rule ("!a.b".data) = true ∧
    (write_rule ("!a.b".data) (write_rule ("!a.b".data) st0)).output
      = ["!a.b".data ++ ['\n'], "!a.b".data ++ ['\n']] := by
  decide

/-- Claim C4 (amended): in one run, passing the same `is_domain_rule`-validated
rule string that does NOT start with `'!'` through `write_rule` twice emits it
to output exactly once, while passing a `'!'`-prefixed comment line with
identical text through `write_rule` twice emits it twice. -/
theorem c4_dedup (s t : List Char) (st : St)
    (hd : is_domain_rule s = true) (hns : isPfx ['!'] s = false)
    (hm : st.processed.contains s = false) (ht : isPfx ['!'] t = true) :
    (write_rule s (write_rule s st)).output = st.output ++ [s ++ ['\n']] ∧
    (write_rule t (write_rule t st)).output
      = st.output ++ [t ++ ['\n'], t ++ ['\n']] := by
  constructor
  · have h1 : write_rule s st
        = ⟨s :: st.processed, st.output ++ [s ++ ['\n']]⟩ := by
      rw [write_rule, if_pos]
      rw [Bool.or_eq_true, Bool.and_eq_true]
      refine Or.inl ⟨hd, ?_⟩
      rw [is_not_duplication, hm]
      rfl
    rw [h1, write_rule, if_neg]
    intro hcond
    rw [Bool.or_eq_true, Bool.and_eq_true] at hcond
    rcases hcond with ⟨_, hdup⟩ | hpf
    · rw [is_not_duplication, Bool.not_eq_true'] at hdup
      simp at hdup
    · rw [hns] at hpf
      exact Bool.false_ne_true hpf
  · rw [write_rule, if_pos (by simp [ht])]
    rw [write_rule, if_pos (by simp [ht])]
    simp

theorem c4_witness :
    (write_rule ("a.b".data) (write_rule ("a.b".data) st0)).output
      = st0.output ++ ["a.b".data ++ ['\n']] ∧
    (write_rule ("!x".data) (write_rule ("!x".data) st0)).output
      = st0.output ++ ["!x".data ++ ['\n'], "!x".data ++ ['\n']] :=
  c4_dedup ("a.b".data) ("!x".data) st0 (by decide) (by decide) (by decide)
    (by decide)

/-- Claim C5, counterexample: the handlers use `line.replace('url', '')`
(resp. `'file'`), which removes EVERY occurrence of the token, not only the
prefix.  On `"url http://x/curl"` the code yields `"http://x/c"` instead of
`"http://x/curl"`; on `"file myfile.txt"` it yields `"my.txt"` instead of
`"myfile.txt"`. -/
theorem c5_counterexample :
    isPfx ("url".data) ("url http://x/curl".data) = true ∧
    url_of_line ("url http://x/curl".data) = "http://x/c".data ∧
    url_of_line_claim ("url http://x/curl".data) = "http://x/curl".data ∧
    url_of_line ("url http://x/curl".data)
      ≠ url_of_line_claim ("url http://x/curl".data) ∧
    isPfx ("file".data) ("file myfile.txt".data) = true ∧
    file_of_line ("file myfile.txt".data) = "my.txt".data ∧
    file_of_line_claim ("file myfile.txt".data) = "myfile.txt".data := by
  decide

/-- Claim C5 (amended): the URL (resp. file path) is obtained by removing
every occurrence of the substring `url` (resp. `file`) from the line and
stripping surrounding whitespace; when the leading prefix is the only such
occurrence this coincides with stripping the prefix and surrounding
whitespace, leaving the rest of the line intact. -/
theorem c5_source_extraction (line : List Char) :
    (isPfx ("url".data) line = true →
      findSub ("url".data) (line.drop 3) = none →
      url_of_line line = pyStrip (line.drop 3)) ∧
    (isPfx ("file".data) line = true →
      findSub ("file".data) (line.drop 4) = none →
      file_of_line line = pyStrip (line.drop 4)) := by
  constructor
  · intro hs hn
    rcases (isPfx_iff _ _).1 hs with ⟨t, rfl⟩
    have hd : (("url".data ++ t)).drop 3 = t := rfl
    rw [hd] at hn ⊢
    unfold url_of_line
    rw [removeAll_cons_self _ _ (by decide), removeAll_of_not_found _ _ hn]
  · intro hs hn
    rcases (isPfx_iff _ _).1 hs with ⟨t, rfl⟩
    have hd : (("file".data ++ t)).drop 4 = t := rfl
    rw [hd] at hn ⊢
    unfold file_of_line
    rw [removeAll_cons_self _ _ (by decide), removeAll_of_not_found _ _ hn]

theorem c5_witness :
    url_of_line ("url http://x/a".data)
      = pyStrip (("url http://x/a".data).drop 3) ∧
    file_of_line ("file local.txt".data)
      = pyStrip (("file local.txt".data).drop 4) :=
  ⟨(c5_source_extraction ("url http://x/a".data)).1 (by decide) (by decide),
   (c5_source_extraction ("file local.txt".data)).2 (by decide) (by decide)⟩

/-- Claim C6: `save_comment` writes the prefix of the comment up to the first
occurrence of the literal token `%timestamp%`, followed by the current local
timestamp formatted `YYYY-MM-DD HH:MM:SS` (`date_now`) and a newline,
discarding everything after the placeholder; a comment without the token is
written unchanged. -/
theorem c6_save_comment_timestamp (d : PyDateTime) (pre suf : List Char)
    (output : List (List Char))
    (h : findSub timestampToken (pre ++ timestampToken ++ suf)
      = some pre.length) :
    save_comment d (pre ++ timestampToken ++ suf) output
      = output ++ [pre ++ date_now d ++ ['\n']] ∧
    (∀ comment, findSub timestampToken comment = none →
      save_comment d comment output = output ++ [comment]) := by
  constructor
  · simp only [save_comment, h]
    have ht : (pre ++ timestampToken ++ suf).take pre.length = pre := by
      rw [List.append_assoc, List.take_left]
    rw [ht]
  · intro comment hc
    simp only [save_comment, hc]

theorem c6_witness :
    save_comment ⟨2026, 10, 12, 9, 5, 3⟩
        ("! generated ".data ++ timestampToken ++ " extra".data) []
      = [] ++ ["! generated ".data ++ date_now ⟨2026, 10, 12, 9, 5, 3⟩ ++ ['\n']] :=
  (c6_save_comment_timestamp ⟨2026, 10, 12, 9, 5, 3⟩ ("! generated ".data)
    (" extra".data) [] (by decide)).1

/-- Claim C7: the single processed-rules set is shared across all source
kinds and grows monotonically — `write_rule`, `save_url_rule` and
`save_file_rule` never remove an element — and a remote-sourced line that,
after exclusion filtering and `$`-truncation, equals a rule previously
written from a local-file source is suppressed as a duplicate. -/
theorem c7_processed_monotone (rule body : List Char)
    (ex fileLines : List (List Char)) (st : St) (x : List Char)
    (hx : x ∈ st.processed) :
    x ∈ (write_rule rule st).processed ∧
    x ∈ (save_url_rule ex body st).processed ∧
    x ∈ (save_file_rule fileLines st).processed ∧
    (save_url_rule [] ("a.com$x".data)
        (save_file_rule ["a.com\n".data] st0)).output
      = (save_file_rule ["a.com\n".data] st0).output := by
  refine ⟨mem_write_rule _ _ _ hx, mem_save_url_lines _ _ _ _ hx,
    mem_save_file_rule _ _ _ hx, ?_⟩
  decide

theorem c7_witness :
    "q.r".data ∈ (write_rule ("s.t".data) ⟨["q.r".data], []⟩).processed ∧
    "q.r".data ∈ (save_url_rule [] ("u.v".data) ⟨["q.r".data], []⟩).processed ∧
    "q.r".data ∈ (save_file_rule [] ⟨["q.r".data], []⟩).processed ∧
    (save_url_rule [] ("a.com$x".data)
        (save_file_rule ["a.com\n".data] st0)).output
      = (save_file_rule ["a.com\n".data] st0).output :=
  c7_processed_monotone ("s.t".data) ("u.v".data) [] [] ⟨["q.r".data], []⟩
    ("q.r".data) (by decide)

/-- Claim C8: for every fetched remote line the pipeline first applies the
exclusion check to the full untruncated line (a match skips the line
entirely), only then truncates a surviving line at the first `$`, and passes
the possibly-truncated line to `write_rule`; consequently an exclusion
substring occurring only in the discarded `$`-suffix still causes rejection,
as the concrete conjuncts show for exclusion `"bad"` and the line
`"a.com$xbad"`. -/
theorem c8_url_pipeline_order (ex : List (List Char)) (rule : List Char)
    (rest : List (List Char)) (st : St) :
    save_url_lines ex (rule :: rest) st
      = save_url_lines ex rest
          (if is_rule_not_exclusion ex rule then
            match pyFind '$' rule with
            | some idx => write_rule (rule.take idx) st
            | none => write_rule rule st
          else st) ∧
    is_rule_not_exclusion ["bad".data] ("a.com$xbad".data) = false ∧
    save_url_rule ["bad".data] ("a.com$xbad".data) st0 = st0 ∧
    is_rule_not_exclusion ["bad".data] (("a.com$xbad".data).take 5) = true :=
  ⟨rfl, by decide, by decide, by decide⟩

/-- Claim C9, counterexample: local-file lines go through Python `rstrip()`
with no arguments, which strips ALL trailing whitespace, not only line
terminators: on the read line `"a.b \n"` the code writes `"a.b\n"`, while
stripping only line terminators would write `"a.b \n"`. -/
theorem c9_counterexample :
    (save_file_rule ["a.b \n".data] st0).output = ["a.b\n".data] ∧
    (save_file_rule_claim ["a.b \n".data] st0).output = ["a.b \n".data] ∧
    save_file_rule ["a.b \n".data] st0
      ≠ save_file_rule_claim ["a.b \n".data] st0 := by
  decide

/-- Claim C9 (amended): for every line read from a local-file source, the
handler strips all trailing whitespace (line terminators included) and passes
the resulting line directly to `write_rule`, applying no exclusion filtering
and no `$`-truncation; apart from the removed trailing-whitespace suffix the
line is unmodified. -/
theorem c9_file_lines (rule : List Char) (rest : List (List Char)) (st : St) :
    save_file_rule (rule :: rest) st
      = save_file_rule rest (write_rule (pyRStrip rule) st) ∧
    ∃ w, rule = pyRStrip rule ++ w ∧ ∀ c ∈ w, isSpace c = true :=
  ⟨rfl, pyRStrip_decomp rule⟩

theorem c9_witness :
    save_file_rule ["a.b \n".data] st0
      = save_file_rule [] (write_rule (pyRStrip ("a.b \n".data)) st0) :=
  (c9_file_lines ("a.b \n".data) [] st0).1

/-- Claim C10: remote content is split into candidate lines on `'\n'` only
and without trimming — joining the lines with `'\n'` restores the body
exactly and no line contains `'\n'` — so the `'\r'` of CRLF endings stays in
the candidate line, where it participates in exclusion matching, domain-rule
validation and dedup equality, as the concrete conjuncts show. -/
theorem c10_newline_split (body : List Char) :
    joinChar '\n' (get_content body) = body ∧
    (∀ l ∈ get_content body, '\n' ∉ l) ∧
    get_content ("a.b\r\nc.d\r\n".data)
      = ["a.b\r".data, "c.d\r".data, []] ∧
    (save_url_rule [['\r']] ("a.b\r\n".data) st0).output = [] ∧
    (save_url_rule [] ("a.b\r\n".data) st0).output = ["a.b\r\n".data] :=
  ⟨joinChar_splitOnChar '\n' body, not_mem_splitOnChar '\n' body,
    by decide, by decide, by decide⟩

theorem c10_witness :
    joinChar '\n' (get_content ("a.b\r\nc.d".data)) = "a.b\r\nc.d".data :=
  (c10_newline_split ("a.b\r\nc.d".data)).1

end FiltersParser
